import Mathlib

/-!
Shallow embedding of `src/lib.rs` of `rust-week-3-exercises`: a binary codec
for a simplified Bitcoin transaction format (CompactSize varints, OutPoint,
Script, TransactionInput, BitcoinTransaction), plus the serde-based structured
(JSON-like) representation.

Modelling conventions:
* Rust byte buffers (`&[u8]`, `Vec<u8>`) are `List Nat`, each element intended
  `< 256`; machine integers are `Nat` with explicit `% 2 ^ w` where the source
  can overflow or truncate.
* Fallible decoders return `DResult`, which has a third constructor `panic`
  for a Rust panic (overflow in a debug build, or an out-of-range slice in a
  release build).  Slice expressions that the source guards with a length
  check before indexing are modelled directly with `take`/`drop`.
* `Vec::with_capacity` is only a capacity hint in the source and is not
  modelled (the model has unbounded memory).
-/

namespace BitcoinCodec

/-- `enum BitcoinError` from the source: the shared error vocabulary. -/
inductive BitcoinError where
  | insufficientBytes
  | invalidFormat
  deriving DecidableEq, Repr

/-- Result of a Rust decode call: `Ok`, `Err e`, or a panic (an arithmetic
overflow or slice-range violation in the source). -/
inductive DResult (α : Type) where
  | ok : α → DResult α
  | err : BitcoinError → DResult α
  | panic : DResult α
  deriving DecidableEq, Repr

/-- Little-endian byte decomposition: `leBytes k v` models
`(v as uNk).to_le_bytes()`, producing `k` bytes, least significant first. -/
def leBytes : Nat → Nat → List Nat
  | 0, _ => []
  | k + 1, v => v % 256 :: leBytes k (v / 256)

/-- Little-endian recomposition: models `uNk::from_le_bytes`. -/
def fromLe : List Nat → Nat
  | [] => 0
  | b :: bs => b + 256 * fromLe bs

/-- `struct CompactSize { value: u64 }`. -/
structure CompactSize where
  value : Nat
  deriving DecidableEq, Repr

/-- `CompactSize::to_bytes`: canonical smallest-class encoding.  The casts
`as u8`/`as u16`/`as u32` in the source truncate, but on each branch the
value already fits the class, so `leBytes` (which only reads the low bytes)
models them exactly. -/
def CompactSize.toBytes (cs : CompactSize) : List Nat :=
  if cs.value ≤ 0xfc then [cs.value % 256]
  else if cs.value ≤ 0xffff then 0xfd :: leBytes 2 cs.value
  else if cs.value ≤ 0xffffffff then 0xfe :: leBytes 4 cs.value
  else 0xff :: leBytes 8 cs.value

/-- `CompactSize::from_bytes`: first byte selects the class; `rest.get(..k)`
fails with `InsufficientBytes` when fewer than `k` trailing bytes remain.
The final match arm of the source is `[0xff, rest @ ..]`; on genuine byte
buffers (all elements `< 256`) the fall-through branch here is exactly that
arm. -/
def CompactSize.fromBytes : List Nat → DResult (CompactSize × Nat)
  | [] => .err .insufficientBytes
  | b :: rest =>
    if b ≤ 0xfc then .ok (⟨b⟩, 1)
    else if b = 0xfd then
      if 2 ≤ rest.length then .ok (⟨fromLe (rest.take 2)⟩, 3)
      else .err .insufficientBytes
    else if b = 0xfe then
      if 4 ≤ rest.length then .ok (⟨fromLe (rest.take 4)⟩, 5)
      else .err .insufficientBytes
    else
      if 8 ≤ rest.length then .ok (⟨fromLe (rest.take 8)⟩, 9)
      else .err .insufficientBytes

/-- `struct Txid(pub [u8; 32])`. -/
structure Txid where
  bytes : List Nat
  deriving DecidableEq, Repr

/-- `struct OutPoint { txid: Txid, vout: u32 }`. -/
structure OutPoint where
  txid : Txid
  vout : Nat
  deriving DecidableEq, Repr

/-- `OutPoint::to_bytes`: 32 txid bytes then the little-endian vout. -/
def OutPoint.toBytes (o : OutPoint) : List Nat :=
  o.txid.bytes ++ leBytes 4 o.vout

/-- `OutPoint::from_bytes`: requires 36 bytes, consumes exactly 36. -/
def OutPoint.fromBytes (bytes : List Nat) : DResult (OutPoint × Nat) :=
  if bytes.length < 36 then .err .insufficientBytes
  else .ok (⟨⟨bytes.take 32⟩, fromLe ((bytes.drop 32).take 4)⟩, 36)

/-- `struct Script { bytes: Vec<u8> }`. -/
structure Script where
  bytes : List Nat
  deriving DecidableEq, Repr

/-- `Script::to_bytes`: CompactSize length prefix (`bytes.len() as u64`,
hence the `% 2 ^ 64`) followed by the raw bytes. -/
def Script.toBytes (s : Script) : List Nat :=
  CompactSize.toBytes ⟨s.bytes.length % 2 ^ 64⟩ ++ s.bytes

/-- `Script::from_bytes`.  The source computes
`total_needed = len_bytes + len_script` in `usize`; when the declared length
is within 9 of `u64::MAX` this addition overflows, and the call panics — in a
debug build at the addition itself, in a release build at the slice
`bytes[len_bytes..total_needed]` whose wrapped end lies before its start
(the preceding `bytes.len() < total_needed` check passes because the wrapped
value is at most 8 while the buffer holds the 9 prefix bytes). -/
def Script.fromBytes (bytes : List Nat) : DResult (Script × Nat) :=
  match CompactSize.fromBytes bytes with
  | .err e => .err e
  | .panic => .panic
  | .ok (len, len_bytes) =>
    if 2 ^ 64 ≤ len_bytes + len.value then .panic
    else
      let total_needed := len_bytes + len.value
      if bytes.length < total_needed then .err .insufficientBytes
      else .ok (⟨(bytes.take total_needed).drop len_bytes⟩, total_needed)

/-- `struct TransactionInput`. -/
structure TransactionInput where
  previous_output : OutPoint
  script_sig : Script
  sequence : Nat
  deriving DecidableEq, Repr

/-- `TransactionInput::to_bytes`: outpoint ++ script ++ LE sequence. -/
def TransactionInput.toBytes (i : TransactionInput) : List Nat :=
  i.previous_output.toBytes ++ i.script_sig.toBytes ++ leBytes 4 i.sequence

/-- `TransactionInput::from_bytes`: decode OutPoint, advance, decode Script,
advance, then require 4 more bytes for the sequence. -/
def TransactionInput.fromBytes (bytes : List Nat) :
    DResult (TransactionInput × Nat) :=
  match OutPoint.fromBytes bytes with
  | .err e => .err e
  | .panic => .panic
  | .ok (previous_output, n1) =>
    match Script.fromBytes (bytes.drop n1) with
    | .err e => .err e
    | .panic => .panic
    | .ok (script_sig, n2) =>
      if bytes.length < n1 + n2 + 4 then .err .insufficientBytes
      else
        .ok (⟨previous_output, script_sig,
              fromLe ((bytes.drop (n1 + n2)).take 4)⟩, n1 + n2 + 4)

/-- `struct BitcoinTransaction`. -/
structure BitcoinTransaction where
  version : Nat
  inputs : List TransactionInput
  lock_time : Nat
  deriving DecidableEq, Repr

/-- `BitcoinTransaction::to_bytes`: LE version, CompactSize input count
(`inputs.len() as u64`), each input's bytes in order, LE lock time. -/
def BitcoinTransaction.toBytes (tx : BitcoinTransaction) : List Nat :=
  leBytes 4 tx.version
    ++ CompactSize.toBytes ⟨tx.inputs.length % 2 ^ 64⟩
    ++ (tx.inputs.map TransactionInput.toBytes).flatten
    ++ leBytes 4 tx.lock_time

/-- The `for _ in 0..input_count.value` loop of
`BitcoinTransaction::from_bytes`: decode `k` inputs from `bytes` starting at
`cursor`, returning the inputs in order and the final cursor. -/
def decodeInputs : Nat → List Nat → Nat →
    DResult (List TransactionInput × Nat)
  | 0, _, cursor => .ok ([], cursor)
  | k + 1, bytes, cursor =>
    match TransactionInput.fromBytes (bytes.drop cursor) with
    | .err e => .err e
    | .panic => .panic
    | .ok (input, n) =>
      match decodeInputs k bytes (cursor + n) with
      | .err e => .err e
      | .panic => .panic
      | .ok (inputs, cursor') => .ok (input :: inputs, cursor')

/-- `BitcoinTransaction::from_bytes`: version (4 bytes), CompactSize count,
exactly `count` inputs, then 4 bytes of lock time. -/
def BitcoinTransaction.fromBytes (bytes : List Nat) :
    DResult (BitcoinTransaction × Nat) :=
  if bytes.length < 4 then .err .insufficientBytes
  else
    match CompactSize.fromBytes (bytes.drop 4) with
    | .err e => .err e
    | .panic => .panic
    | .ok (input_count, count_len) =>
      match decodeInputs input_count.value bytes (4 + count_len) with
      | .err e => .err e
      | .panic => .panic
      | .ok (inputs, cursor) =>
        if bytes.length < cursor + 4 then .err .insufficientBytes
        else
          .ok (⟨fromLe (bytes.take 4), inputs,
                fromLe ((bytes.drop cursor).take 4)⟩, cursor + 4)

/-! ### Well-formedness

A model value is well-formed when it is representable as the corresponding
Rust value: bytes below 256, `u32` fields below `2 ^ 32`, and vector lengths
within `isize::MAX` (`< 2 ^ 63`), the bound every Rust `Vec` satisfies. -/

/-- All elements are valid `u8` values. -/
def ByteList (l : List Nat) : Prop := ∀ x ∈ l, x < 256

/-- Well-formed `Txid`: exactly 32 genuine bytes. -/
def Txid.wf (t : Txid) : Prop := t.bytes.length = 32 ∧ ByteList t.bytes

/-- Well-formed `OutPoint`. -/
def OutPoint.wf (o : OutPoint) : Prop := o.txid.wf ∧ o.vout < 2 ^ 32

/-- Well-formed `Script`: genuine bytes, length a valid Rust `Vec` length. -/
def Script.wf (s : Script) : Prop :=
  ByteList s.bytes ∧ s.bytes.length < 2 ^ 63

/-- Well-formed `TransactionInput`. -/
def TransactionInput.wf (i : TransactionInput) : Prop :=
  i.previous_output.wf ∧ i.script_sig.wf ∧ i.sequence < 2 ^ 32

/-- Well-formed `BitcoinTransaction`. -/
def BitcoinTransaction.wf (tx : BitcoinTransaction) : Prop :=
  tx.version < 2 ^ 32 ∧ (∀ i ∈ tx.inputs, i.wf) ∧
    tx.inputs.length < 2 ^ 63 ∧ tx.lock_time < 2 ^ 32

instance (l : List Nat) : Decidable (ByteList l) := by
  unfold ByteList; infer_instance

instance (t : Txid) : Decidable t.wf := by
  unfold Txid.wf; infer_instance

instance (o : OutPoint) : Decidable o.wf := by
  unfold OutPoint.wf; infer_instance

instance (s : Script) : Decidable s.wf := by
  unfold Script.wf; infer_instance

instance (i : TransactionInput) : Decidable i.wf := by
  unfold TransactionInput.wf; infer_instance

instance (tx : BitcoinTransaction) : Decidable tx.wf := by
  unfold BitcoinTransaction.wf; infer_instance

/-! ### Concrete example values

The end-to-end example of the documentation: a version-2 transaction with a
single input spending outpoint (txid = 31 zero bytes then `0x01`, vout 0)
with script `[0x01, 0x02]`, sequence `0xffffffff`, lock time 1000; its
binary encoding is 52 bytes. -/

/-- Txid whose last byte is 1 (`dummy_txid(1)` of the test suite). -/
def egTxid : Txid := ⟨List.replicate 31 0 ++ [1]⟩

/-- Example outpoint. -/
def egOutPoint : OutPoint := ⟨egTxid, 0⟩

/-- Example script. -/
def egScript : Script := ⟨[0x01, 0x02]⟩

/-- Example transaction input. -/
def egInput : TransactionInput := ⟨egOutPoint, egScript, 0xffffffff⟩

/-- Example transaction (the 52-byte end-to-end example). -/
def egTx : BitcoinTransaction := ⟨2, [egInput], 1000⟩

/-! ### Little-endian byte lemmas -/

theorem leBytes_length (k v : Nat) : (leBytes k v).length = k := by
  induction k generalizing v with
  | zero => rfl
  | succ k ih => simp [leBytes, ih]

theorem fromLe_leBytes (k v : Nat) : fromLe (leBytes k v) = v % 256 ^ k := by
  induction k generalizing v with
  | zero => simp [leBytes, fromLe, Nat.mod_one]
  | succ k ih =>
    rw [leBytes, fromLe, ih, pow_succ', Nat.mod_mul]

theorem leBytes_byteList (k v : Nat) : ByteList (leBytes k v) := by
  induction k generalizing v with
  | zero => intro x hx; simp [leBytes] at hx
  | succ k ih =>
    intro x hx
    rw [leBytes] at hx
    rcases List.mem_cons.mp hx with h | h
    · rw [h]; exact Nat.mod_lt _ (by norm_num)
    · exact ih (v / 256) x h

/-- `fromLe` of a 4-byte prefix of an append only reads the first list when
the list has at least 4 elements. -/
theorem take_append_of_length_eq {α : Type} (l1 l2 : List α) (n : Nat)
    (h : l1.length = n) : (l1 ++ l2).take n = l1 :=
  List.take_left' h

/-! ### CompactSize per-class decode lemmas -/

theorem cs_fb_small (b0 : Nat) (rest : List Nat) (h : b0 ≤ 0xfc) :
    CompactSize.fromBytes (b0 :: rest) = .ok (⟨b0⟩, 1) := by
  simp [CompactSize.fromBytes, h]

theorem cs_fb_fd (rest : List Nat) (h : 2 ≤ rest.length) :
    CompactSize.fromBytes (0xfd :: rest) = .ok (⟨fromLe (rest.take 2)⟩, 3) := by
  simp [CompactSize.fromBytes, h]

theorem cs_fb_fe (rest : List Nat) (h : 4 ≤ rest.length) :
    CompactSize.fromBytes (0xfe :: rest) = .ok (⟨fromLe (rest.take 4)⟩, 5) := by
  simp [CompactSize.fromBytes, h]

theorem cs_fb_ff (rest : List Nat) (h : 8 ≤ rest.length) :
    CompactSize.fromBytes (0xff :: rest) = .ok (⟨fromLe (rest.take 8)⟩, 9) := by
  simp [CompactSize.fromBytes, h]

theorem cs_fb_fd_short (rest : List Nat) (h : rest.length < 2) :
    CompactSize.fromBytes (0xfd :: rest) = .err .insufficientBytes := by
  simp [CompactSize.fromBytes, show ¬ 2 ≤ rest.length by omega]

theorem cs_fb_fe_short (rest : List Nat) (h : rest.length < 4) :
    CompactSize.fromBytes (0xfe :: rest) = .err .insufficientBytes := by
  simp [CompactSize.fromBytes, show ¬ 4 ≤ rest.length by omega]

theorem cs_fb_ff_short (rest : List Nat) (h : rest.length < 8) :
    CompactSize.fromBytes (0xff :: rest) = .err .insufficientBytes := by
  simp [CompactSize.fromBytes, show ¬ 8 ≤ rest.length by omega]

theorem cs_toBytes_length_le (v : Nat) :
    1 ≤ (CompactSize.toBytes ⟨v⟩).length ∧ (CompactSize.toBytes ⟨v⟩).length ≤ 9 := by
  unfold CompactSize.toBytes
  split_ifs <;> simp [leBytes_length]

/-- Round-trip for the CompactSize codec, stable under appended bytes. -/
theorem cs_roundtrip (v : Nat) (hv : v < 2 ^ 64) (rest : List Nat) :
    CompactSize.fromBytes (CompactSize.toBytes ⟨v⟩ ++ rest)
      = .ok (⟨v⟩, (CompactSize.toBytes ⟨v⟩).length) := by
  unfold CompactSize.toBytes
  by_cases h1 : v ≤ 0xfc
  · have hv256 : v % 256 = v := Nat.mod_eq_of_lt (by omega)
    simp only [if_pos h1, hv256, List.cons_append, List.nil_append,
      List.length_cons, List.length_nil]
    exact cs_fb_small v rest h1
  · by_cases h2 : v ≤ 0xffff
    · simp only [if_neg h1, if_pos h2, List.cons_append, List.length_cons,
        leBytes_length]
      have hp : (256 : Nat) ^ 2 = 65536 := by norm_num
      rw [cs_fb_fd _ (by simp [leBytes_length]),
        List.take_append_of_le_length (by simp [leBytes_length]),
        List.take_of_length_le (by simp [leBytes_length]), fromLe_leBytes, hp,
        Nat.mod_eq_of_lt (by omega)]
    · by_cases h3 : v ≤ 0xffffffff
      · simp only [if_neg h1, if_neg h2, if_pos h3, List.cons_append,
          List.length_cons, leBytes_length]
        have hp : (256 : Nat) ^ 4 = 4294967296 := by norm_num
        rw [cs_fb_fe _ (by simp [leBytes_length]),
          List.take_append_of_le_length (by simp [leBytes_length]),
          List.take_of_length_le (by simp [leBytes_length]), fromLe_leBytes, hp,
          Nat.mod_eq_of_lt (by omega)]
      · simp only [if_neg h1, if_neg h2, if_neg h3, List.cons_append,
          List.length_cons, leBytes_length]
        have hp : (256 : Nat) ^ 8 = 18446744073709551616 := by norm_num
        rw [cs_fb_ff _ (by simp [leBytes_length]),
          List.take_append_of_le_length (by simp [leBytes_length]),
          List.take_of_length_le (by simp [leBytes_length]), fromLe_leBytes, hp,
          Nat.mod_eq_of_lt (by omega)]

/-- A successful CompactSize decode consumes at most the buffer and is
unchanged by appending bytes. -/
theorem cs_stable (b e : List Nat) (v : CompactSize) (n : Nat)
    (h : CompactSize.fromBytes b = .ok (v, n)) :
    n ≤ b.length ∧ CompactSize.fromBytes (b ++ e) = .ok (v, n) := by
  cases b with
  | nil => simp [CompactSize.fromBytes] at h
  | cons b0 rest =>
    by_cases h1 : b0 ≤ 0xfc
    · rw [cs_fb_small b0 rest h1] at h
      injection h with h
      cases h
      exact ⟨by simp, by rw [List.cons_append, cs_fb_small b0 _ h1]⟩
    · by_cases h2 : b0 = 0xfd
      · subst h2
        by_cases h3 : 2 ≤ rest.length
        · rw [cs_fb_fd rest h3] at h
          injection h with h
          cases h
          refine ⟨by simp; omega, ?_⟩
          rw [List.cons_append, cs_fb_fd _ (by simp; omega),
            List.take_append_of_le_length h3]
        · rw [cs_fb_fd_short rest (by omega)] at h
          exact absurd h (by simp)
      · by_cases h2' : b0 = 0xfe
        · subst h2'
          by_cases h3 : 4 ≤ rest.length
          · rw [cs_fb_fe rest h3] at h
            injection h with h
            cases h
            refine ⟨by simp; omega, ?_⟩
            rw [List.cons_append, cs_fb_fe _ (by simp; omega),
              List.take_append_of_le_length h3]
          · rw [cs_fb_fe_short rest (by omega)] at h
            exact absurd h (by simp)
        · have hb : ¬ b0 ≤ 0xfc ∧ b0 ≠ 0xfd ∧ b0 ≠ 0xfe := ⟨h1, h2, h2'⟩
          by_cases h3 : 8 ≤ rest.length
          · have hfb : CompactSize.fromBytes (b0 :: rest)
                = .ok (⟨fromLe (rest.take 8)⟩, 9) := by
              simp [CompactSize.fromBytes, h1, h2, h2', h3]
            rw [hfb] at h
            injection h with h
            cases h
            refine ⟨by simp; omega, ?_⟩
            rw [List.cons_append]
            have : CompactSize.fromBytes (b0 :: (rest ++ e))
                = .ok (⟨fromLe ((rest ++ e).take 8)⟩, 9) := by
              simp [CompactSize.fromBytes, h1, h2, h2']
              omega
            rw [this, List.take_append_of_le_length h3]
          · have hfb : CompactSize.fromBytes (b0 :: rest)
                = .err .insufficientBytes := by
              simp [CompactSize.fromBytes, h1, h2, h2',
                show ¬ 8 ≤ rest.length by omega]
            rw [hfb] at h
            exact absurd h (by simp)

/-! ### OutPoint lemmas -/

theorem op_toBytes_length (o : OutPoint) (hwf : o.wf) :
    o.toBytes.length = 36 := by
  simp [OutPoint.toBytes, leBytes_length, hwf.1.1]

/-- Round-trip for the OutPoint codec, stable under appended bytes. -/
theorem op_roundtrip (o : OutPoint) (hwf : o.wf) (rest : List Nat) :
    OutPoint.fromBytes (o.toBytes ++ rest) = .ok (o, 36) := by
  obtain ⟨⟨htl, _⟩, hv⟩ := hwf
  unfold OutPoint.fromBytes OutPoint.toBytes
  rw [if_neg (by simp [leBytes_length, htl]; omega)]
  rw [List.append_assoc, List.take_append_of_le_length (by omega),
    List.take_of_length_le (by omega),
    List.drop_append_of_le_length (by omega),
    List.drop_of_length_le (by omega), List.nil_append,
    take_append_of_length_eq _ _ _ (leBytes_length 4 o.vout),
    fromLe_leBytes]
  have hp : (256 : Nat) ^ 4 = 4294967296 := by norm_num
  rw [hp, Nat.mod_eq_of_lt (by omega)]

/-- A successful OutPoint decode consumes at most the buffer and is
unchanged by appending bytes. -/
theorem op_stable (b e : List Nat) (o : OutPoint) (n : Nat)
    (h : OutPoint.fromBytes b = .ok (o, n)) :
    n ≤ b.length ∧ OutPoint.fromBytes (b ++ e) = .ok (o, n) := by
  unfold OutPoint.fromBytes at h ⊢
  by_cases hl : b.length < 36
  · rw [if_pos hl] at h
    exact absurd h (by simp)
  · rw [if_neg hl] at h
    injection h with h
    cases h
    refine ⟨by omega, ?_⟩
    rw [if_neg (by simp; omega),
      List.take_append_of_le_length (by omega),
      List.drop_append_of_le_length (by omega),
      List.take_append_of_le_length (by simp [List.length_drop]; omega)]

/-! ### Script lemmas -/

theorem script_toBytes_length (s : Script) (hwf : s.wf) :
    s.toBytes.length
      = (CompactSize.toBytes ⟨s.bytes.length⟩).length + s.bytes.length := by
  have hmod : s.bytes.length % 18446744073709551616 = s.bytes.length :=
    Nat.mod_eq_of_lt (by have := hwf.2; omega)
  simp [Script.toBytes, hmod]

/-- Round-trip for the Script codec, stable under appended bytes. -/
theorem script_roundtrip (s : Script) (hwf : s.wf) (rest : List Nat) :
    Script.fromBytes (s.toBytes ++ rest) = .ok (s, s.toBytes.length) := by
  obtain ⟨-, hlen⟩ := hwf
  have hmod : s.bytes.length % 2 ^ 64 = s.bytes.length :=
    Nat.mod_eq_of_lt (by omega)
  have hcsl := cs_toBytes_length_le s.bytes.length
  unfold Script.fromBytes Script.toBytes
  rw [hmod, List.append_assoc,
    cs_roundtrip s.bytes.length (by omega) (s.bytes ++ rest)]
  dsimp only
  rw [if_neg (by omega)]
  have htot : (CompactSize.toBytes ⟨s.bytes.length⟩).length + s.bytes.length
      = (CompactSize.toBytes ⟨s.bytes.length⟩ ++ s.bytes).length := by
    simp
  simp only [htot]
  rw [if_neg (by simp [← List.append_assoc])]
  rw [← List.append_assoc,
    take_append_of_length_eq _ _ _ rfl,
    List.drop_left]

/-- A successful Script decode consumes at most the buffer and is unchanged
by appending bytes. -/
theorem script_stable (b e : List Nat) (s : Script) (n : Nat)
    (h : Script.fromBytes b = .ok (s, n)) :
    n ≤ b.length ∧ Script.fromBytes (b ++ e) = .ok (s, n) := by
  unfold Script.fromBytes at h ⊢
  cases hcs : CompactSize.fromBytes b with
  | err e' => rw [hcs] at h; exact absurd h (by simp)
  | panic => rw [hcs] at h; exact absurd h (by simp)
  | ok p =>
    obtain ⟨len, lb⟩ := p
    rw [hcs] at h
    dsimp only at h
    obtain ⟨hle, hcs'⟩ := cs_stable b e len lb hcs
    rw [hcs']
    dsimp only
    by_cases hov : 2 ^ 64 ≤ lb + len.value
    · rw [if_pos hov] at h
      exact absurd h (by simp)
    · rw [if_neg hov] at h ⊢
      by_cases hshort : b.length < lb + len.value
      · simp only [if_pos hshort] at h
        exact absurd h (by simp)
      · simp only [if_neg hshort] at h
        injection h with h
        cases h
        refine ⟨by omega, ?_⟩
        rw [if_neg (by simp; omega),
          List.take_append_of_le_length (by omega)]

/-! ### TransactionInput lemmas -/

theorem ti_toBytes_length (i : TransactionInput) (hwf : i.wf) :
    i.toBytes.length = 36 + i.script_sig.toBytes.length + 4 := by
  simp [TransactionInput.toBytes, op_toBytes_length _ hwf.1, leBytes_length]
  omega

/-- Round-trip for the TransactionInput codec, stable under appended bytes. -/
theorem ti_roundtrip (i : TransactionInput) (hwf : i.wf) (rest : List Nat) :
    TransactionInput.fromBytes (i.toBytes ++ rest)
      = .ok (i, i.toBytes.length) := by
  obtain ⟨hop, hsc, hseq⟩ := hwf
  have hstl := op_toBytes_length i.previous_output hop
  unfold TransactionInput.fromBytes
  rw [show i.toBytes ++ rest
      = i.previous_output.toBytes
        ++ (i.script_sig.toBytes ++ (leBytes 4 i.sequence ++ rest)) by
    simp [TransactionInput.toBytes]]
  rw [op_roundtrip _ hop]
  dsimp only
  rw [List.drop_left' hstl, script_roundtrip _ hsc]
  dsimp only
  rw [if_neg (by simp [hstl, leBytes_length]; omega)]
  have hdrop : (i.previous_output.toBytes
      ++ (i.script_sig.toBytes ++ (leBytes 4 i.sequence ++ rest))).drop
        (36 + i.script_sig.toBytes.length) = leBytes 4 i.sequence ++ rest := by
    rw [← List.append_assoc]
    exact List.drop_left' (by simp [hstl])
  rw [hdrop, take_append_of_length_eq _ _ _ (leBytes_length 4 i.sequence),
    fromLe_leBytes]
  have hp : (256 : Nat) ^ 4 = 4294967296 := by norm_num
  rw [hp, Nat.mod_eq_of_lt (by omega)]
  have hlen : i.toBytes.length = 36 + i.script_sig.toBytes.length + 4 := by
    simp [TransactionInput.toBytes, hstl, leBytes_length]
    omega
  rw [hlen]

/-- A successful TransactionInput decode consumes at most the buffer and is
unchanged by appending bytes. -/
theorem ti_stable (b e : List Nat) (i : TransactionInput) (n : Nat)
    (h : TransactionInput.fromBytes b = .ok (i, n)) :
    n ≤ b.length ∧ TransactionInput.fromBytes (b ++ e) = .ok (i, n) := by
  unfold TransactionInput.fromBytes at h ⊢
  cases hop : OutPoint.fromBytes b with
  | err e' => rw [hop] at h; exact absurd h (by simp)
  | panic => rw [hop] at h; exact absurd h (by simp)
  | ok p =>
    obtain ⟨po, n1⟩ := p
    rw [hop] at h
    dsimp only at h
    obtain ⟨hn1, hop'⟩ := op_stable b e po n1 hop
    rw [hop']
    dsimp only
    cases hsc : Script.fromBytes (b.drop n1) with
    | err e' => rw [hsc] at h; exact absurd h (by simp)
    | panic => rw [hsc] at h; exact absurd h (by simp)
    | ok q =>
      obtain ⟨ss, n2⟩ := q
      rw [hsc] at h
      dsimp only at h
      obtain ⟨hn2, hsc'⟩ := script_stable (b.drop n1) e ss n2 hsc
      simp only [List.length_drop] at hn2
      rw [List.drop_append_of_le_length hn1, hsc']
      dsimp only
      by_cases hshort : b.length < n1 + n2 + 4
      · rw [if_pos hshort] at h
        exact absurd h (by simp)
      · rw [if_neg hshort] at h
        injection h with h
        cases h
        refine ⟨by omega, ?_⟩
        rw [if_neg (by simp; omega),
          List.drop_append_of_le_length (by omega),
          List.take_append_of_le_length (by simp [List.length_drop]; omega)]

/-! ### Transaction input-loop lemmas -/

/-- Decoding the concatenation of the encodings of well-formed inputs (plus
anything after) yields exactly those inputs, advancing the cursor by the
total encoded length. -/
theorem decodeInputs_encode (L : List TransactionInput) :
    ∀ (bytes : List Nat) (cursor : Nat) (post : List Nat),
      (∀ i ∈ L, i.wf) →
      bytes.drop cursor = (L.map TransactionInput.toBytes).flatten ++ post →
      decodeInputs L.length bytes cursor
        = .ok (L, cursor + ((L.map TransactionInput.toBytes).flatten).length) := by
  induction L with
  | nil =>
    intro bytes cursor post _ _
    simp [decodeInputs]
  | cons i L ih =>
    intro bytes cursor post hwf hdrop
    have hiwf : i.wf := hwf i (by simp)
    have hLwf : ∀ j ∈ L, j.wf := fun j hj => hwf j (by simp [hj])
    rw [List.map_cons, List.flatten_cons, List.append_assoc] at hdrop
    have hfb : TransactionInput.fromBytes (bytes.drop cursor)
        = .ok (i, i.toBytes.length) := by
      rw [hdrop]; exact ti_roundtrip i hiwf _
    have hdrop2 : bytes.drop (cursor + i.toBytes.length)
        = (L.map TransactionInput.toBytes).flatten ++ post := by
      rw [← List.drop_drop, hdrop, List.drop_left]
    have hrec := ih bytes (cursor + i.toBytes.length) post hLwf hdrop2
    show decodeInputs (L.length + 1) bytes cursor = _
    rw [decodeInputs, hfb]
    dsimp only
    rw [hrec]
    simp [Nat.add_assoc]

/-- A successful run of the input-decoding loop keeps the cursor within the
buffer and is unchanged by appending bytes. -/
theorem decodeInputs_stable (k : Nat) :
    ∀ (b e : List Nat) (c : Nat) (L : List TransactionInput) (c' : Nat),
      decodeInputs k b c = .ok (L, c') → c ≤ b.length →
      c' ≤ b.length ∧ decodeInputs k (b ++ e) c = .ok (L, c') := by
  induction k with
  | zero =>
    intro b e c L c' h hc
    rw [decodeInputs] at h
    injection h with h
    cases h
    exact ⟨hc, by rw [decodeInputs]⟩
  | succ k ih =>
    intro b e c L c' h hc
    rw [decodeInputs] at h
    cases hti : TransactionInput.fromBytes (b.drop c) with
    | err e' => rw [hti] at h; exact absurd h (by simp)
    | panic => rw [hti] at h; exact absurd h (by simp)
    | ok p =>
      obtain ⟨inp, n⟩ := p
      rw [hti] at h
      dsimp only at h
      obtain ⟨hn, hti'⟩ := ti_stable (b.drop c) e inp n hti
      simp only [List.length_drop] at hn
      cases hrec : decodeInputs k b (c + n) with
      | err e' => rw [hrec] at h; exact absurd h (by simp)
      | panic => rw [hrec] at h; exact absurd h (by simp)
      | ok q =>
        obtain ⟨L', c''⟩ := q
        rw [hrec] at h
        dsimp only at h
        injection h with h
        cases h
        obtain ⟨hcf, hrec'⟩ := ih b e (c + n) L' c' hrec (by omega)
        refine ⟨hcf, ?_⟩
        rw [decodeInputs, List.drop_append_of_le_length hc, hti']
        dsimp only
        rw [hrec']

/-! ### BitcoinTransaction lemmas -/

theorem tx_toBytes_length (tx : BitcoinTransaction) (hwf : tx.wf) :
    tx.toBytes.length
      = 4 + (CompactSize.toBytes ⟨tx.inputs.length⟩).length
          + ((tx.inputs.map TransactionInput.toBytes).flatten).length + 4 := by
  have hmod : tx.inputs.length % 18446744073709551616 = tx.inputs.length :=
    Nat.mod_eq_of_lt (by have := hwf.2.2.1; omega)
  simp [BitcoinTransaction.toBytes, hmod, leBytes_length]
  omega

/-- Round-trip for the BitcoinTransaction codec, stable under appended
bytes. -/
theorem tx_roundtrip (tx : BitcoinTransaction) (hwf : tx.wf) (rest : List Nat) :
    BitcoinTransaction.fromBytes (tx.toBytes ++ rest)
      = .ok (tx, tx.toBytes.length) := by
  obtain ⟨hver, hinp, hcount, hlock⟩ := hwf
  have hmod : tx.inputs.length % 18446744073709551616 = tx.inputs.length :=
    Nat.mod_eq_of_lt (by omega)
  have hbytes : tx.toBytes ++ rest
      = leBytes 4 tx.version
          ++ (CompactSize.toBytes ⟨tx.inputs.length⟩
            ++ ((tx.inputs.map TransactionInput.toBytes).flatten
              ++ (leBytes 4 tx.lock_time ++ rest))) := by
    simp [BitcoinTransaction.toBytes, hmod, List.append_assoc]
  unfold BitcoinTransaction.fromBytes
  rw [hbytes]
  rw [if_neg (by simp [leBytes_length])]
  rw [List.drop_left' (leBytes_length 4 tx.version),
    cs_roundtrip tx.inputs.length (by omega)]
  dsimp only
  have hdrop : (leBytes 4 tx.version
      ++ (CompactSize.toBytes ⟨tx.inputs.length⟩
        ++ ((tx.inputs.map TransactionInput.toBytes).flatten
          ++ (leBytes 4 tx.lock_time ++ rest)))).drop
            (4 + (CompactSize.toBytes ⟨tx.inputs.length⟩).length)
      = (tx.inputs.map TransactionInput.toBytes).flatten
          ++ (leBytes 4 tx.lock_time ++ rest) := by
    rw [← List.append_assoc]
    exact List.drop_left' (by simp [leBytes_length])
  rw [decodeInputs_encode tx.inputs _ _ (leBytes 4 tx.lock_time ++ rest)
    hinp hdrop]
  dsimp only
  rw [if_neg (by simp [leBytes_length]; omega)]
  have hdrop2 : (leBytes 4 tx.version
      ++ (CompactSize.toBytes ⟨tx.inputs.length⟩
        ++ ((tx.inputs.map TransactionInput.toBytes).flatten
          ++ (leBytes 4 tx.lock_time ++ rest)))).drop
            (4 + (CompactSize.toBytes ⟨tx.inputs.length⟩).length
              + ((tx.inputs.map TransactionInput.toBytes).flatten).length)
      = leBytes 4 tx.lock_time ++ rest := by
    rw [← List.append_assoc, ← List.append_assoc]
    exact List.drop_left' (by simp [leBytes_length]; omega)
  rw [hdrop2, take_append_of_length_eq _ _ _ (leBytes_length 4 tx.lock_time),
    List.take_append_of_le_length (by simp [leBytes_length]),
    List.take_of_length_le (by simp [leBytes_length]),
    fromLe_leBytes, fromLe_leBytes]
  have hp : (256 : Nat) ^ 4 = 4294967296 := by norm_num
  rw [hp, Nat.mod_eq_of_lt (by omega), Nat.mod_eq_of_lt (by omega)]
  have hlen : tx.toBytes.length
      = 4 + (CompactSize.toBytes ⟨tx.inputs.length⟩).length
          + ((tx.inputs.map TransactionInput.toBytes).flatten).length + 4 :=
    tx_toBytes_length tx ⟨hver, hinp, hcount, hlock⟩
  rw [hlen]

/-- A successful BitcoinTransaction decode consumes at most the buffer and is
unchanged by appending bytes. -/
theorem tx_stable (b e : List Nat) (tx : BitcoinTransaction) (n : Nat)
    (h : BitcoinTransaction.fromBytes b = .ok (tx, n)) :
    n ≤ b.length ∧ BitcoinTransaction.fromBytes (b ++ e) = .ok (tx, n) := by
  unfold BitcoinTransaction.fromBytes at h ⊢
  by_cases h4 : b.length < 4
  · rw [if_pos h4] at h
    exact absurd h (by simp)
  · rw [if_neg h4] at h
    rw [if_neg (by simp; omega)]
    cases hcs : CompactSize.fromBytes (b.drop 4) with
    | err e' => rw [hcs] at h; exact absurd h (by simp)
    | panic => rw [hcs] at h; exact absurd h (by simp)
    | ok p =>
      obtain ⟨cnt, clen⟩ := p
      rw [hcs] at h
      dsimp only at h
      obtain ⟨hclen, hcs'⟩ := cs_stable (b.drop 4) e cnt clen hcs
      simp only [List.length_drop] at hclen
      rw [List.drop_append_of_le_length (by omega), hcs']
      dsimp only
      cases hdi : decodeInputs cnt.value b (4 + clen) with
      | err e' => rw [hdi] at h; exact absurd h (by simp)
      | panic => rw [hdi] at h; exact absurd h (by simp)
      | ok q =>
        obtain ⟨inputs, cursor⟩ := q
        rw [hdi] at h
        dsimp only at h
        obtain ⟨hcur, hdi'⟩ :=
          decodeInputs_stable cnt.value b e (4 + clen) inputs cursor hdi
            (by omega)
        rw [hdi']
        dsimp only
        by_cases hshort : b.length < cursor + 4
        · rw [if_pos hshort] at h
          exact absurd h (by simp)
        · rw [if_neg hshort] at h
          injection h with h
          cases h
          refine ⟨by omega, ?_⟩
          rw [if_neg (by simp; omega),
            List.take_append_of_le_length (by omega),
            List.drop_append_of_le_length (by omega),
            List.take_append_of_le_length (by simp [List.length_drop]; omega)]

/-! ### Structured (serde_json-like) representation

The test suite serialises a `BitcoinTransaction` through `serde_json` and
back.  The structured data model is a tree of objects, arrays, strings and
numbers; strings are modelled as lists of character codes. -/

/-- A structured-text value (the `serde_json` data model). -/
inductive JValue where
  | num : Nat → JValue
  | str : List Nat → JValue
  | arr : List JValue → JValue
  | obj : List (String × JValue) → JValue

/-- One digit of `hex::encode`: a nibble to its lowercase hex character
code (`0`-`9`, `a`-`f`). -/
def hexDigit (d : Nat) : Nat :=
  if d < 10 then 48 + d else 87 + d

/-- `hex::encode`: two lowercase hex digits per byte, high nibble first. -/
def hexEncode : List Nat → List Nat
  | [] => []
  | b :: bs => hexDigit (b / 16) :: hexDigit (b % 16) :: hexEncode bs

/-- One digit of `hex::decode`: accepts `0`-`9`, `a`-`f` and `A`-`F`. -/
def hexDigitVal (c : Nat) : Option Nat :=
  if 48 ≤ c ∧ c ≤ 57 then some (c - 48)
  else if 97 ≤ c ∧ c ≤ 102 then some (c - 87)
  else if 65 ≤ c ∧ c ≤ 70 then some (c - 55)
  else none

/-- `hex::decode`: pairs of digits; an odd length or invalid digit fails. -/
def hexDecode : List Nat → Option (List Nat)
  | [] => some []
  | [_] => none
  | c1 :: c2 :: cs =>
    match hexDigitVal c1, hexDigitVal c2, hexDecode cs with
    | some d1, some d2, some bs => some ((16 * d1 + d2) :: bs)
    | _, _, _ => none

/-- `impl Serialize for Txid`: serialises `hex::encode(self.0)` as a string.
The byte-reversing lines in the source are commented out, so the bytes are
hex-encoded in stored order. -/
def Txid.serializeJ (t : Txid) : JValue := .str (hexEncode t.bytes)

/-- `impl Deserialize for Txid`: read a string, `hex::decode` it, require
exactly 32 resulting bytes; no reversal. -/
def Txid.deserializeJ : JValue → Option Txid
  | .str s =>
    match hexDecode s with
    | none => none
    | some bs => if bs.length = 32 then some ⟨bs⟩ else none
  | _ => none

/-- Derived `Serialize` for `OutPoint` (declaration field order). -/
def OutPoint.serializeJ (o : OutPoint) : JValue :=
  .obj [("txid", o.txid.serializeJ), ("vout", .num o.vout)]

/-- Derived `Serialize` for `Script`: `Vec<u8>` becomes a number array. -/
def Script.serializeJ (s : Script) : JValue :=
  .obj [("bytes", .arr (s.bytes.map JValue.num))]

/-- Derived `Serialize` for `TransactionInput`. -/
def TransactionInput.serializeJ (i : TransactionInput) : JValue :=
  .obj [("previous_output", i.previous_output.serializeJ),
        ("script_sig", i.script_sig.serializeJ),
        ("sequence", .num i.sequence)]

/-- Derived `Serialize` for `BitcoinTransaction`. -/
def BitcoinTransaction.serializeJ (tx : BitcoinTransaction) : JValue :=
  .obj [("version", .num tx.version),
        ("inputs", .arr (tx.inputs.map TransactionInput.serializeJ)),
        ("lock_time", .num tx.lock_time)]

/-- `u32` deserialisation from a structured number: rejects values above
`u32::MAX`. -/
def deserializeU32 : JValue → Option Nat
  | .num v => if v < 2 ^ 32 then some v else none
  | _ => none

/-- `u8` deserialisation from a structured number. -/
def deserializeU8 : JValue → Option Nat
  | .num v => if v < 2 ^ 8 then some v else none
  | _ => none

/-- `Vec<u8>` deserialisation: each element a `u8` number. -/
def deserializeBytes : List JValue → Option (List Nat)
  | [] => some []
  | j :: js =>
    match deserializeU8 j, deserializeBytes js with
    | some b, some bs => some (b :: bs)
    | _, _ => none

/-- Derived `Deserialize` for `OutPoint`, modelled on the canonical field
order its serialiser produces (the derived impl also accepts reordered
fields, which the round-trip never exercises). -/
def OutPoint.deserializeJ : JValue → Option OutPoint
  | .obj [("txid", jt), ("vout", jv)] =>
    match Txid.deserializeJ jt, deserializeU32 jv with
    | some t, some v => some ⟨t, v⟩
    | _, _ => none
  | _ => none

/-- Derived `Deserialize` for `Script`. -/
def Script.deserializeJ : JValue → Option Script
  | .obj [("bytes", .arr js)] =>
    match deserializeBytes js with
    | some bs => some ⟨bs⟩
    | none => none
  | _ => none

/-- Derived `Deserialize` for `TransactionInput`. -/
def TransactionInput.deserializeJ : JValue → Option TransactionInput
  | .obj [("previous_output", jp), ("script_sig", js), ("sequence", jq)] =>
    match OutPoint.deserializeJ jp, Script.deserializeJ js,
        deserializeU32 jq with
    | some p, some s, some q => some ⟨p, s, q⟩
    | _, _, _ => none
  | _ => none

/-- `Vec<TransactionInput>` deserialisation. -/
def deserializeInputsJ : List JValue → Option (List TransactionInput)
  | [] => some []
  | j :: js =>
    match TransactionInput.deserializeJ j, deserializeInputsJ js with
    | some i, some is => some (i :: is)
    | _, _ => none

/-- Derived `Deserialize` for `BitcoinTransaction`. -/
def BitcoinTransaction.deserializeJ : JValue → Option BitcoinTransaction
  | .obj [("version", jv), ("inputs", .arr js), ("lock_time", jl)] =>
    match deserializeU32 jv, deserializeInputsJ js, deserializeU32 jl with
    | some v, some is, some l => some ⟨v, is, l⟩
    | _, _, _ => none
  | _ => none

/-! ### Hex and structured round-trip lemmas -/

theorem hexDigitVal_hexDigit (d : Nat) (h : d < 16) :
    hexDigitVal (hexDigit d) = some d := by
  unfold hexDigit hexDigitVal
  by_cases h10 : d < 10
  · rw [if_pos h10, if_pos (by omega)]
    congr 1
    omega
  · rw [if_neg h10, if_neg (by omega), if_pos (by omega)]
    congr 1
    omega

theorem hexEncode_length (bs : List Nat) :
    (hexEncode bs).length = 2 * bs.length := by
  induction bs with
  | nil => rfl
  | cons b bs ih => simp [hexEncode, ih]; omega

theorem hexEncode_digits (bs : List Nat) (h : ByteList bs) :
    ∀ c ∈ hexEncode bs, (48 ≤ c ∧ c ≤ 57) ∨ (97 ≤ c ∧ c ≤ 102) := by
  induction bs with
  | nil => intro c hc; simp [hexEncode] at hc
  | cons b bs ih =>
    intro c hc
    have hb : b < 256 := h b (by simp)
    have hbs : ByteList bs := fun x hx => h x (by simp [hx])
    rw [hexEncode] at hc
    rcases List.mem_cons.mp hc with h1 | hc'
    · rw [h1]; unfold hexDigit; split_ifs <;> omega
    · rcases List.mem_cons.mp hc' with h2 | h3
      · rw [h2]; unfold hexDigit; split_ifs <;> omega
      · exact ih hbs c h3

theorem hexDecode_hexEncode (bs : List Nat) (h : ByteList bs) :
    hexDecode (hexEncode bs) = some bs := by
  induction bs with
  | nil => rfl
  | cons b bs ih =>
    have hb : b < 256 := h b (by simp)
    have hbs : ByteList bs := fun x hx => h x (by simp [hx])
    rw [hexEncode, hexDecode,
      hexDigitVal_hexDigit _ (by omega),
      hexDigitVal_hexDigit _ (Nat.mod_lt _ (by norm_num)),
      ih hbs]
    dsimp only
    have hre : 16 * (b / 16) + b % 16 = b := by omega
    rw [hre]

theorem txid_j_roundtrip (t : Txid) (h : t.wf) :
    Txid.deserializeJ t.serializeJ = some t := by
  obtain ⟨hl, hb⟩ := h
  rw [Txid.serializeJ, Txid.deserializeJ, hexDecode_hexEncode t.bytes hb]
  dsimp only
  rw [if_pos hl]

theorem deserializeBytes_map (bs : List Nat) (h : ByteList bs) :
    deserializeBytes (bs.map JValue.num) = some bs := by
  induction bs with
  | nil => rfl
  | cons b bs ih =>
    have hb : b < 256 := h b (by simp)
    have hbs : ByteList bs := fun x hx => h x (by simp [hx])
    rw [List.map_cons, deserializeBytes, ih hbs]
    rw [show deserializeU8 (JValue.num b) = some b by
      rw [deserializeU8, if_pos (by omega)]]

theorem op_j_roundtrip (o : OutPoint) (h : o.wf) :
    OutPoint.deserializeJ o.serializeJ = some o := by
  rw [OutPoint.serializeJ, OutPoint.deserializeJ,
    txid_j_roundtrip o.txid h.1,
    show deserializeU32 (JValue.num o.vout) = some o.vout by
      rw [deserializeU32, if_pos h.2]]

theorem script_j_roundtrip (s : Script) (h : s.wf) :
    Script.deserializeJ s.serializeJ = some s := by
  rw [Script.serializeJ, Script.deserializeJ, deserializeBytes_map s.bytes h.1]

theorem ti_j_roundtrip (i : TransactionInput) (h : i.wf) :
    TransactionInput.deserializeJ i.serializeJ = some i := by
  rw [TransactionInput.serializeJ, TransactionInput.deserializeJ,
    op_j_roundtrip i.previous_output h.1,
    script_j_roundtrip i.script_sig h.2.1,
    show deserializeU32 (JValue.num i.sequence) = some i.sequence by
      rw [deserializeU32, if_pos h.2.2]]

theorem inputs_j_roundtrip (L : List TransactionInput)
    (h : ∀ i ∈ L, i.wf) :
    deserializeInputsJ (L.map TransactionInput.serializeJ) = some L := by
  induction L with
  | nil => rfl
  | cons i L ih =>
    rw [List.map_cons, deserializeInputsJ, ti_j_roundtrip i (h i (by simp)),
      ih (fun j hj => h j (by simp [hj]))]

theorem tx_j_roundtrip (tx : BitcoinTransaction) (h : tx.wf) :
    BitcoinTransaction.deserializeJ tx.serializeJ = some tx := by
  rw [BitcoinTransaction.serializeJ, BitcoinTransaction.deserializeJ,
    inputs_j_roundtrip tx.inputs h.2.1,
    show deserializeU32 (JValue.num tx.version) = some tx.version by
      rw [deserializeU32, if_pos h.1],
    show deserializeU32 (JValue.num tx.lock_time) = some tx.lock_time by
      rw [deserializeU32, if_pos h.2.2.2]]

/-! ### Claims -/

/-- C1: for every well-formed OutPoint, Script, TransactionInput and
BitcoinTransaction value `x`, decoding the bytes produced by encoding `x`
succeeds and returns exactly `(x, length of the encoding)`. -/
theorem C1_binary_roundtrip :
    (∀ o : OutPoint, o.wf →
      OutPoint.fromBytes o.toBytes = .ok (o, o.toBytes.length))
      ∧ (∀ s : Script, s.wf →
          Script.fromBytes s.toBytes = .ok (s, s.toBytes.length))
      ∧ (∀ i : TransactionInput, i.wf →
          TransactionInput.fromBytes i.toBytes = .ok (i, i.toBytes.length))
      ∧ (∀ tx : BitcoinTransaction, tx.wf →
          BitcoinTransaction.fromBytes tx.toBytes
            = .ok (tx, tx.toBytes.length)) := by
  refine ⟨fun o h => ?_, fun s h => ?_, fun i h => ?_, fun tx h => ?_⟩
  · have hr := op_roundtrip o h []
    rw [List.append_nil] at hr
    rw [hr, op_toBytes_length o h]
  · have hr := script_roundtrip s h []
    rw [List.append_nil] at hr
    exact hr
  · have hr := ti_roundtrip i h []
    rw [List.append_nil] at hr
    exact hr
  · have hr := tx_roundtrip tx h []
    rw [List.append_nil] at hr
    exact hr

/-- Witness for C1 at the concrete 52-byte example transaction and its
parts. -/
theorem C1_binary_roundtrip_witness :
    (egOutPoint.wf ∧ OutPoint.fromBytes egOutPoint.toBytes
        = .ok (egOutPoint, egOutPoint.toBytes.length))
      ∧ (egScript.wf ∧ Script.fromBytes egScript.toBytes
          = .ok (egScript, egScript.toBytes.length))
      ∧ (egInput.wf ∧ TransactionInput.fromBytes egInput.toBytes
          = .ok (egInput, egInput.toBytes.length))
      ∧ (egTx.wf ∧ BitcoinTransaction.fromBytes egTx.toBytes
          = .ok (egTx, egTx.toBytes.length)) ∧ egTx.toBytes.length = 52 :=
  ⟨⟨by decide, C1_binary_roundtrip.1 egOutPoint (by decide)⟩,
    ⟨by decide, C1_binary_roundtrip.2.1 egScript (by decide)⟩,
    ⟨by decide, C1_binary_roundtrip.2.2.1 egInput (by decide)⟩,
    ⟨by decide, C1_binary_roundtrip.2.2.2 egTx (by decide)⟩, by decide⟩

/-- C2: structured-encode then structured-decode reproduces an equal
transaction value, for every well-formed transaction. -/
theorem C2_structured_roundtrip (tx : BitcoinTransaction) (hwf : tx.wf) :
    BitcoinTransaction.deserializeJ tx.serializeJ = some tx :=
  tx_j_roundtrip tx hwf

/-- Witness for C2 at the concrete example transaction. -/
theorem C2_structured_roundtrip_witness :
    egTx.wf ∧ BitcoinTransaction.deserializeJ egTx.serializeJ = some egTx :=
  ⟨by decide, C2_structured_roundtrip egTx (by decide)⟩

/-- C3 counterexample: for the Txid whose first byte is 1 and the rest 0,
the structured encoding is not the hex encoding of the reversed bytes (the
reversal in the source is commented out). -/
theorem C3_counterexample :
    ¬ (Txid.serializeJ ⟨1 :: List.replicate 31 0⟩
        = .str (hexEncode ((1 :: List.replicate 31 0 : List Nat)).reverse)) := by
  intro h
  rw [Txid.serializeJ] at h
  injection h with h
  exact absurd h (by decide)

/-- C3 (amended): the structured text encoding of a well-formed Txid is the
lowercase hex encoding (64 characters from `0`-`9`, `a`-`f`) of its 32 bytes
in stored wire order, without byte reversal. -/
theorem C3_amended_no_reversal (t : Txid) (hwf : t.wf) :
    Txid.serializeJ t = .str (hexEncode t.bytes)
      ∧ (hexEncode t.bytes).length = 64
      ∧ (∀ c ∈ hexEncode t.bytes,
          (48 ≤ c ∧ c ≤ 57) ∨ (97 ≤ c ∧ c ≤ 102)) :=
  ⟨rfl, by rw [hexEncode_length, hwf.1], hexEncode_digits t.bytes hwf.2⟩

/-- Witness for the amended C3 at the concrete example Txid. -/
theorem C3_amended_no_reversal_witness :
    egTxid.wf
      ∧ (Txid.serializeJ egTxid = .str (hexEncode egTxid.bytes)
        ∧ (hexEncode egTxid.bytes).length = 64
        ∧ (∀ c ∈ hexEncode egTxid.bytes,
            (48 ≤ c ∧ c ≤ 57) ∨ (97 ≤ c ∧ c ≤ 102))) :=
  ⟨by decide, C3_amended_no_reversal egTxid (by decide)⟩

/-- C4: CompactSize encoding is the canonical smallest-class encoding, with
the listed concrete encodings. -/
theorem C4_compactsize_encoding (v : Nat) (hv : v < 2 ^ 64) :
    (v ≤ 252 → CompactSize.toBytes ⟨v⟩ = [v])
      ∧ (253 ≤ v → v ≤ 65535 →
          CompactSize.toBytes ⟨v⟩ = 0xfd :: leBytes 2 v)
      ∧ (65536 ≤ v → v ≤ 4294967295 →
          CompactSize.toBytes ⟨v⟩ = 0xfe :: leBytes 4 v)
      ∧ (4294967296 ≤ v → CompactSize.toBytes ⟨v⟩ = 0xff :: leBytes 8 v)
      ∧ CompactSize.toBytes ⟨0⟩ = [0x00]
      ∧ CompactSize.toBytes ⟨252⟩ = [0xfc]
      ∧ CompactSize.toBytes ⟨253⟩ = [0xfd, 0xfd, 0x00]
      ∧ CompactSize.toBytes ⟨65536⟩ = [0xfe, 0x00, 0x00, 0x01, 0x00]
      ∧ CompactSize.toBytes ⟨4294967296⟩
          = [0xff, 0x00, 0x00, 0x00, 0x00, 0x01, 0x00, 0x00, 0x00] := by
  refine ⟨fun h1 => ?_, fun h1 h2 => ?_, fun h1 h2 => ?_, fun h1 => ?_,
    by decide, by decide, by decide, by decide, by decide⟩
  · unfold CompactSize.toBytes
    dsimp only
    rw [if_pos h1, Nat.mod_eq_of_lt (by omega)]
  · unfold CompactSize.toBytes
    dsimp only
    rw [if_neg (by omega), if_pos (by omega)]
  · unfold CompactSize.toBytes
    dsimp only
    rw [if_neg (by omega), if_neg (by omega), if_pos (by omega)]
  · unfold CompactSize.toBytes
    dsimp only
    rw [if_neg (by omega), if_neg (by omega), if_neg (by omega)]

/-- Witness for C4 in the three-byte class at 300. -/
theorem C4_compactsize_encoding_witness :
    CompactSize.toBytes ⟨300⟩ = 0xfd :: leBytes 2 300 :=
  (C4_compactsize_encoding 300 (by decide)).2.1 (by decide) (by decide)

/-- C5: decode of encode succeeds with the value and the class length for
each listed boundary value (lengths 1, 3, 5 and 9). -/
theorem C5_boundary_roundtrip :
    (CompactSize.fromBytes (CompactSize.toBytes ⟨0⟩) = .ok (⟨0⟩, 1)
        ∧ (CompactSize.toBytes ⟨0⟩).length = 1)
      ∧ (CompactSize.fromBytes (CompactSize.toBytes ⟨252⟩) = .ok (⟨252⟩, 1)
        ∧ (CompactSize.toBytes ⟨252⟩).length = 1)
      ∧ (CompactSize.fromBytes (CompactSize.toBytes ⟨253⟩) = .ok (⟨253⟩, 3)
        ∧ (CompactSize.toBytes ⟨253⟩).length = 3)
      ∧ (CompactSize.fromBytes (CompactSize.toBytes ⟨65535⟩)
          = .ok (⟨65535⟩, 3) ∧ (CompactSize.toBytes ⟨65535⟩).length = 3)
      ∧ (CompactSize.fromBytes (CompactSize.toBytes ⟨65536⟩)
          = .ok (⟨65536⟩, 5) ∧ (CompactSize.toBytes ⟨65536⟩).length = 5)
      ∧ (CompactSize.fromBytes (CompactSize.toBytes ⟨4294967295⟩)
          = .ok (⟨4294967295⟩, 5)
        ∧ (CompactSize.toBytes ⟨4294967295⟩).length = 5)
      ∧ (CompactSize.fromBytes (CompactSize.toBytes ⟨4294967296⟩)
          = .ok (⟨4294967296⟩, 9)
        ∧ (CompactSize.toBytes ⟨4294967296⟩).length = 9)
      ∧ (CompactSize.fromBytes (CompactSize.toBytes ⟨18446744073709551615⟩)
          = .ok (⟨18446744073709551615⟩, 9)
        ∧ (CompactSize.toBytes ⟨18446744073709551615⟩).length = 9) := by
  decide

/-- C6: CompactSize decoding fails with InsufficientBytes on the empty
buffer and on every buffer whose first byte selects a class requiring more
trailing bytes than are present. -/
theorem C6_insufficient_bytes :
    CompactSize.fromBytes [] = .err .insufficientBytes
      ∧ CompactSize.fromBytes [0xfd, 0x01] = .err .insufficientBytes
      ∧ (∀ rest : List Nat, rest.length < 2 →
          CompactSize.fromBytes (0xfd :: rest) = .err .insufficientBytes)
      ∧ (∀ rest : List Nat, rest.length < 4 →
          CompactSize.fromBytes (0xfe :: rest) = .err .insufficientBytes)
      ∧ (∀ rest : List Nat, rest.length < 8 →
          CompactSize.fromBytes (0xff :: rest) = .err .insufficientBytes) :=
  ⟨rfl, by decide, cs_fb_fd_short, cs_fb_fe_short, cs_fb_ff_short⟩

/-- Witness for C6 at the one-byte buffer `[0xfe]`. -/
theorem C6_insufficient_bytes_witness :
    CompactSize.fromBytes [0xfe] = .err .insufficientBytes :=
  C6_insufficient_bytes.2.2.2.1 [] (by decide)

/-- C7: decoding is permissive: every structurally well-formed buffer
decodes, including non-canonical encodings such as `[0xfd, w, 0x00]` for
`w ≤ 252`, which yields `w` with 3 bytes consumed. -/
theorem C7_permissive (w : Nat) (rest : List Nat) :
    (2 ≤ rest.length →
      CompactSize.fromBytes (0xfd :: rest)
        = .ok (⟨fromLe (rest.take 2)⟩, 3))
      ∧ (4 ≤ rest.length →
          CompactSize.fromBytes (0xfe :: rest)
            = .ok (⟨fromLe (rest.take 4)⟩, 5))
      ∧ (8 ≤ rest.length →
          CompactSize.fromBytes (0xff :: rest)
            = .ok (⟨fromLe (rest.take 8)⟩, 9))
      ∧ (w ≤ 252 →
          CompactSize.fromBytes (0xfd :: w :: 0 :: rest) = .ok (⟨w⟩, 3)) := by
  refine ⟨cs_fb_fd rest, cs_fb_fe rest, cs_fb_ff rest, fun _ => ?_⟩
  rw [cs_fb_fd _ (by simp)]
  simp [fromLe]

/-- Witness for C7: the non-canonical encoding `[0xfd, 5, 0]` decodes to 5
with 3 bytes consumed. -/
theorem C7_permissive_witness :
    CompactSize.fromBytes [0xfd, 5, 0] = .ok (⟨5⟩, 3) :=
  (C7_permissive 5 []).2.2.2 (by decide)

/-- C8 (code evaluation at the failing input): `Script::from_bytes` on the
9-byte buffer declaring script length `u64::MAX` panics — `usize` overflow
in `total_needed = len_bytes + len_script` (checked-add panic in a debug
build; in a release build the wrapped end makes the guard pass and the
slice `bytes[9..8]` panic) — instead of failing with `InsufficientBytes`
as the claim requires. -/
theorem C8_script_fromBytes_panics :
    Script.fromBytes (0xff :: List.replicate 8 0xff) = .panic := by
  decide

/-- C9 (code evaluation at the failing input): a transaction buffer whose
declared input count (1) exceeds the number of complete inputs present (0,
because the input's script length field is `u64::MAX`) makes
`BitcoinTransaction::from_bytes` panic via the Script overflow rather than
fail with `InsufficientBytes`. -/
theorem C9_tx_fromBytes_panics :
    BitcoinTransaction.fromBytes
      ([2, 0, 0, 0] ++ [1] ++ List.replicate 36 0
        ++ (0xff :: List.replicate 8 0xff)) = .panic := by
  decide

/-- C10: every binary decoder is prefix-stable and never over-consumes: a
successful decode consumes at most the buffer, and appending trailing bytes
changes neither the value nor the consumed count. -/
theorem C10_prefix_stable :
    (∀ (b e : List Nat) (v : CompactSize) (n : Nat),
      CompactSize.fromBytes b = .ok (v, n) →
        n ≤ b.length ∧ CompactSize.fromBytes (b ++ e) = .ok (v, n))
      ∧ (∀ (b e : List Nat) (o : OutPoint) (n : Nat),
          OutPoint.fromBytes b = .ok (o, n) →
            n ≤ b.length ∧ OutPoint.fromBytes (b ++ e) = .ok (o, n))
      ∧ (∀ (b e : List Nat) (s : Script) (n : Nat),
          Script.fromBytes b = .ok (s, n) →
            n ≤ b.length ∧ Script.fromBytes (b ++ e) = .ok (s, n))
      ∧ (∀ (b e : List Nat) (i : TransactionInput) (n : Nat),
          TransactionInput.fromBytes b = .ok (i, n) →
            n ≤ b.length ∧ TransactionInput.fromBytes (b ++ e) = .ok (i, n))
      ∧ (∀ (b e : List Nat) (tx : BitcoinTransaction) (n : Nat),
          BitcoinTransaction.fromBytes b = .ok (tx, n) →
            n ≤ b.length
              ∧ BitcoinTransaction.fromBytes (b ++ e) = .ok (tx, n)) :=
  ⟨cs_stable, op_stable, script_stable, ti_stable, tx_stable⟩

/-- Witness for C10: decoding `[5]` consumes 1 byte and is unchanged by the
extension `[7, 8]`. -/
theorem C10_prefix_stable_witness :
    1 ≤ ([5] : List Nat).length
      ∧ CompactSize.fromBytes (([5] : List Nat) ++ [7, 8]) = .ok (⟨5⟩, 1) :=
  C10_prefix_stable.1 [5] [7, 8] ⟨5⟩ 1 (by decide)

end BitcoinCodec
